import Mathlib

/-!
# Verification of the ECC demo repository

The repository is a Jupyter notebook demonstrating elliptic-curve
cryptography over a prime field: the short Weierstrass group law, ECDH key
agreement and ECDSA signatures.  The notebook's code cell imports an `ecc`
module (not part of the repository sources) and exercises it on the curve
`y² = x³ + 2x + 2` over `ℤ/17` with generator `G = (5, 1)`.

Below, the curve engine is modelled from the repository's specification:
modular field arithmetic, the affine point model, the group-law addition
with its five prioritised cases, double-and-add scalar multiplication,
ECDH shared-secret derivation and ECDSA sign/verify.  Fallible operations
(modular inverse of a non-invertible residue, rejection of points not on
the curve, degenerate ECDSA nonces) return `Option` values, `none`
standing for the error outcome.

The correctness theorems relate this executable model to Mathlib's
`WeierstrassCurve.Affine.Point` group over `ZMod p`, which provides the
group structure needed for the ECDH agreement and ECDSA round-trip
properties.
-/

namespace Ecc

/-- Modelled from the spec: the curve context owns the parameters
`a`, `b`, the field modulus `p`, the base point `G = (gx, gy)` and the
group order `n` of `G` (used only by ECDSA). -/
structure Curve where
  a : Nat
  b : Nat
  p : Nat
  gx : Nat
  gy : Nat
  n : Nat
deriving DecidableEq

/-- Modelled from the spec: a curve point is either the point at infinity
(the identity `O`) or an affine coordinate pair with both coordinates
reduced modulo `p`. -/
inductive Point where
  | infinity
  | affine (x y : Nat)
deriving DecidableEq

/-- Reduction of a (possibly negative) integer into `[0, p-1]`; this is
what the Python `%` operator computes for a positive modulus. -/
def fmod (z : Int) (p : Nat) : Nat :=
  (z % (p : Int)).toNat

/-- Modelled from the spec: the modular inverse `x⁻¹ mod p`, computed via
Fermat's little theorem `x^(p-2) mod p` for prime `p`; fails
(`DivisionByZero`, modelled as `none`) when `x ≡ 0 (mod p)`. -/
def inverse (x p : Nat) : Option Nat :=
  if x % p = 0 then none else some (x ^ (p - 2) % p)

/-- Modelled from the spec: point negation; the identity negates to
itself, `(x, y)` negates to `(x, (p - y) mod p)`. -/
def negate (c : Curve) : Point → Point
  | Point.infinity => Point.infinity
  | Point.affine x y => Point.affine x ((c.p - y) % c.p)

/-- Modelled from the spec: the common tail of the two sloped cases of
point addition, `x₃ = (λ² - x₁ - x₂) mod p` and
`y₃ = (λ(x₁ - x₃) - y₁) mod p`. -/
def chordPoint (c : Curve) (x1 y1 x2 l : Nat) : Point :=
  let x3 := fmod ((l : Int) ^ 2 - (x1 : Int) - (x2 : Int)) c.p
  Point.affine x3 (fmod ((l : Int) * ((x1 : Int) - (x3 : Int)) - (y1 : Int)) c.p)

/-- Modelled from the spec: the group law `P + Q`, with the five cases
checked in priority order: `P = O`; `Q = O`; `P = -Q` (same `x`, opposite
`y`); `P = Q` (doubling slope `λ = (3x₁² + a)·(2y₁)⁻¹`); general addition
(slope `λ = (y₂ - y₁)·(x₂ - x₁)⁻¹`).  A `none` result models the
`DivisionByZero` failure of the modular inverse. -/
def add (c : Curve) (P Q : Point) : Option Point :=
  match P, Q with
  | Point.infinity, _ => some Q
  | _, Point.infinity => some P
  | Point.affine x1 y1, Point.affine x2 y2 =>
    if x1 = x2 ∧ y2 = (c.p - y1) % c.p then
      some Point.infinity
    else if x1 = x2 ∧ y1 = y2 then
      match inverse (2 * y1) c.p with
      | none => none
      | some i => some (chordPoint c x1 y1 x2 ((3 * x1 ^ 2 + c.a) * i % c.p))
    else
      match inverse (fmod ((x2 : Int) - (x1 : Int)) c.p) c.p with
      | none => none
      | some i => some (chordPoint c x1 y1 x2 (fmod (((y2 : Int) - (y1 : Int)) * (i : Int)) c.p))

/-- Modelled from the spec: double-and-add scalar multiplication,
recursing on the binary representation via `k·P = 2·(⌊k/2⌋·P) + (k mod 2)·P`.
The `fuel` argument only makes the recursion structural: `multiply` calls
with `fuel = k`, which always suffices because the scalar at least halves
while the fuel decreases by one, so the fuel-exhausted `none` branch is
unreachable. -/
def multiplyGo (c : Curve) (P : Point) : Nat → Nat → Option Point
  | _, 0 => some Point.infinity
  | 0, _ + 1 => none
  | fuel + 1, k + 1 =>
    match multiplyGo c P fuel ((k + 1) / 2) with
    | none => none
    | some h =>
      match add c h h with
      | none => none
      | some d => if (k + 1) % 2 = 1 then add c d P else some d

/-- Modelled from the spec: `multiply(k, P, curve) = k·P`; `k = 0` yields
the identity. -/
def multiply (c : Curve) (k : Nat) (P : Point) : Option Point :=
  multiplyGo c P k k

/-- The base point `G` of the curve context. -/
def generator (c : Curve) : Point :=
  Point.affine c.gx c.gy

/-- Modelled from the spec: `onCurve` checks the defining equation
`y² ≡ x³ + a·x + b (mod p)`; the identity is on every curve. -/
def onCurve (c : Curve) : Point → Bool
  | Point.infinity => true
  | Point.affine x y => y ^ 2 % c.p == (x ^ 3 + c.a * x + c.b) % c.p

/-- Modelled from the spec: validated construction of a point from
untrusted coordinates; the `PointNotOnCurve` failure is modelled as
`none`. -/
def mkPoint (c : Curve) (x y : Nat) : Option Point :=
  if onCurve c (Point.affine x y) then some (Point.affine x y) else none

/-- Modelled from the notebook's demo cell: `curve.product(k, P)` is
scalar multiplication, and when the point argument is omitted
(`P = none`, the Python default) the curve's generator is used.  The
one-argument form derives public keys, the two-argument form shared
secrets. -/
def product (c : Curve) (k : Nat) (P : Option Point) : Option Point :=
  match P with
  | none => multiply c k (generator c)
  | some Q => multiply c k Q

/-- Modelled from the spec: ECDH shared-secret derivation validates that
the peer's public point lies on the curve (rejecting with
`PointNotOnCurve`, modelled as `none`) before multiplying it by the own
private scalar. -/
def deriveSharedSecret (c : Curve) (d : Nat) (peer : Point) : Option Point :=
  if onCurve c peer then multiply c d peer else none

/-- Modelled from the spec: one ECDSA signing attempt with message digest
`z`, private key `d` and nonce `k`: compute `(x₁, y₁) = k·G`,
`r = x₁ mod n`, `s = k⁻¹·(z + r·d) mod n`.  A degenerate outcome
(`r = 0` or `s = 0`) is rejected as `none`, which the signing loop
answers by redrawing the nonce and retrying. -/
def sign (c : Curve) (z d k : Nat) : Option (Nat × Nat) :=
  match multiply c k (generator c) with
  | some (Point.affine x1 _) =>
    match inverse k c.n with
    | some ki =>
      let r := x1 % c.n
      let s := ki * (z + r * d) % c.n
      if r = 0 ∨ s = 0 then none else some (r, s)
    | none => none
  | _ => none

/-- Modelled from the spec: ECDSA verification of signature `(r, s)` on
digest `z` under public key `q`: reject if `r` or `s` is outside
`[1, n-1]`; otherwise compute `w = s⁻¹ mod n`, `u₁ = z·w mod n`,
`u₂ = r·w mod n` and the point `u₁·G + u₂·Q`, and accept iff that point
is not the identity and its `x`-coordinate is congruent to `r` mod `n`. -/
def verify (c : Curve) (z r s : Nat) (q : Point) : Bool :=
  if r = 0 ∨ s = 0 ∨ c.n ≤ r ∨ c.n ≤ s then false
  else
    match inverse s c.n with
    | none => false
    | some w =>
      let u1 := z * w % c.n
      let u2 := r * w % c.n
      match multiply c u1 (generator c), multiply c u2 q with
      | some p1, some p2 =>
        match add c p1 p2 with
        | some (Point.affine x1 _) => x1 % c.n == r
        | _ => false
      | _, _ => false

/-- The worked example's curve: `y² = x³ + 2x + 2` over `ℤ/17` with
generator `G = (5, 1)`, whose order is `19`. -/
def demoCurve : Curve :=
  ⟨2, 2, 17, 5, 1, 19⟩

/-- A point is valid for a curve context when it is the identity or an
affine pair with both coordinates reduced modulo `p` satisfying the curve
equation. -/
def Valid (c : Curve) : Point → Prop
  | Point.infinity => True
  | Point.affine x y => x < c.p ∧ y < c.p ∧ y ^ 2 % c.p = (x ^ 3 + c.a * x + c.b) % c.p

instance (c : Curve) (P : Point) : Decidable (Valid c P) :=
  match P with
  | Point.infinity => Decidable.isTrue trivial
  | Point.affine _ _ => inferInstanceAs (Decidable (_ ∧ _ ∧ _))

end Ecc

namespace Ecc

/-! ## Bridge to Mathlib's affine Weierstrass curve over `ZMod p` -/

/-- The short Weierstrass curve `Y² = X³ + aX + b` over `ZMod c.p`
corresponding to the curve context: coefficients
`a₁ = a₂ = a₃ = 0`, `a₄ = a`, `a₆ = b`. -/
def toWeierstrass (c : Curve) : WeierstrassCurve.Affine (ZMod c.p) :=
  ⟨0, 0, 0, (c.a : ZMod c.p), (c.b : ZMod c.p)⟩

/-- The computational point corresponding to a nonsingular rational point
of the Weierstrass curve: coordinates are the canonical representatives
in `[0, p-1]`. -/
def ofW (c : Curve) : (toWeierstrass c).Point → Point
  | WeierstrassCurve.Affine.Point.zero => Point.infinity
  | @WeierstrassCurve.Affine.Point.some _ _ _ x y _ => Point.affine x.val y.val

theorem fmod_lt {p : Nat} (hp : 0 < p) (z : Int) : fmod z p < p := by
  have h1 : 0 ≤ z % (p : Int) := Int.emod_nonneg z (by exact_mod_cast hp.ne')
  have h2 : z % (p : Int) < (p : Int) := Int.emod_lt_of_pos z (by exact_mod_cast hp)
  unfold fmod
  omega

theorem fmod_cast {p : Nat} (hp : 0 < p) (z : Int) :
    ((fmod z p : Nat) : ZMod p) = (z : ZMod p) := by
  have hnn : 0 ≤ z % (p : Int) := Int.emod_nonneg z (by exact_mod_cast hp.ne')
  have h1 : ((fmod z p : Nat) : Int) = z % (p : Int) := Int.toNat_of_nonneg hnn
  calc ((fmod z p : Nat) : ZMod p) = (((fmod z p : Nat) : Int) : ZMod p) := by push_cast; ring
    _ = ((z % (p : Int)) : ZMod p) := by rw [h1]
    _ = (z : ZMod p) := ZMod.intCast_mod z p

theorem natCast_inj_of_lt {p m n : Nat} (hm : m < p) (hn : n < p)
    (h : (m : ZMod p) = (n : ZMod p)) : m = n := by
  have := (ZMod.natCast_eq_natCast_iff' m n p).mp h
  rwa [Nat.mod_eq_of_lt hm, Nat.mod_eq_of_lt hn] at this

theorem cast_val_self {p : Nat} [NeZero p] (u : ZMod p) : ((u.val : Nat) : ZMod p) = u :=
  ZMod.natCast_rightInverse u

theorem eq_val_of_cast_eq {p m : Nat} [NeZero p] {u : ZMod p} (hm : m < p)
    (h : (m : ZMod p) = u) : m = u.val := by
  have : (m : ZMod p).val = u.val := by rw [h]
  rwa [ZMod.val_natCast, Nat.mod_eq_of_lt hm] at this

theorem natCast_ne_zero_of_lt {p m : Nat} (h0 : m ≠ 0) (hm : m < p) :
    (m : ZMod p) ≠ 0 := by
  intro h
  have := (ZMod.natCast_zmod_eq_zero_iff_dvd m p).mp h
  exact h0 (Nat.eq_zero_of_dvd_of_lt this hm)

theorem inverse_eq_none_iff {p x : Nat} : inverse x p = none ↔ x % p = 0 := by
  unfold inverse
  split <;> simp_all

theorem inverse_cast {p x : Nat} [hp : Fact p.Prime] (hx : (x : ZMod p) ≠ 0) :
    inverse x p = some (x ^ (p - 2) % p) ∧
      ((x ^ (p - 2) % p : Nat) : ZMod p) = (x : ZMod p)⁻¹ ∧ x ^ (p - 2) % p < p := by
  have hp0 : 0 < p := hp.out.pos
  have hdvd : ¬ p ∣ x := fun h => hx ((ZMod.natCast_zmod_eq_zero_iff_dvd x p).mpr h)
  have hmod : x % p ≠ 0 := fun h => hdvd (Nat.dvd_of_mod_eq_zero h)
  refine ⟨by unfold inverse; rw [if_neg hmod], ?_, Nat.mod_lt _ hp0⟩
  have hcast : ((x ^ (p - 2) % p : Nat) : ZMod p) = (x : ZMod p) ^ (p - 2) := by
    rw [ZMod.natCast_mod, Nat.cast_pow]
  rw [hcast]
  have h1 : (x : ZMod p) ^ (p - 1) = 1 := ZMod.pow_card_sub_one_eq_one hx
  have h2 : (x : ZMod p) * (x : ZMod p) ^ (p - 2) = (x : ZMod p) ^ (p - 1) := by
    rw [← pow_succ']
    congr 1
    have := hp.out.two_le
    omega
  exact (inv_eq_of_mul_eq_one_right (by rw [h2, h1])).symm

end Ecc

namespace Ecc

theorem toW_a₁ (c : Curve) : (toWeierstrass c).a₁ = 0 := rfl

theorem toW_a₂ (c : Curve) : (toWeierstrass c).a₂ = 0 := rfl

theorem toW_a₃ (c : Curve) : (toWeierstrass c).a₃ = 0 := rfl

theorem toW_a₄ (c : Curve) : (toWeierstrass c).a₄ = (c.a : ZMod c.p) := rfl

theorem toW_a₆ (c : Curve) : (toWeierstrass c).a₆ = (c.b : ZMod c.p) := rfl

theorem toW_negY (c : Curve) (x y : ZMod c.p) : (toWeierstrass c).negY x y = -y := by
  simp [WeierstrassCurve.Affine.negY, toW_a₁, toW_a₃]

theorem toW_equation_iff (c : Curve) (x y : ZMod c.p) :
    (toWeierstrass c).Equation x y ↔
      y ^ 2 = x ^ 3 + (c.a : ZMod c.p) * x + (c.b : ZMod c.p) := by
  rw [WeierstrassCurve.Affine.equation_iff]
  simp [toW_a₁, toW_a₂, toW_a₃, toW_a₄, toW_a₆]

theorem toW_Δ (c : Curve) :
    (toWeierstrass c).Δ = -16 * ((4 * c.a ^ 3 + 27 * c.b ^ 2 : Nat) : ZMod c.p) := by
  rw [WeierstrassCurve.Δ, WeierstrassCurve.b₂, WeierstrassCurve.b₄, WeierstrassCurve.b₆,
    WeierstrassCurve.b₈, toW_a₁, toW_a₂, toW_a₃, toW_a₄, toW_a₆]
  push_cast
  ring

theorem toW_Δ_ne_zero {c : Curve} (hp : Nat.Prime c.p) (hp2 : 2 < c.p)
    (hΔ : (4 * c.a ^ 3 + 27 * c.b ^ 2) % c.p ≠ 0) : (toWeierstrass c).Δ ≠ 0 := by
  haveI : Fact (Nat.Prime c.p) := ⟨hp⟩
  rw [toW_Δ]
  apply mul_ne_zero
  · intro h16
    have h : ((16 : Nat) : ZMod c.p) = 0 := by
      have : (-16 : ZMod c.p) = -((16 : Nat) : ZMod c.p) := by push_cast; ring
      rw [this] at h16
      exact neg_eq_zero.mp h16
    have hdvd : c.p ∣ 16 := (ZMod.natCast_zmod_eq_zero_iff_dvd 16 c.p).mp h
    have : c.p ∣ 2 := hp.dvd_of_dvd_pow (n := 4) (by norm_num at hdvd ⊢; exact hdvd)
    have := Nat.le_of_dvd (by norm_num) this
    omega
  · intro h
    have hdvd := (ZMod.natCast_zmod_eq_zero_iff_dvd _ c.p).mp h
    exact hΔ (Nat.dvd_iff_mod_eq_zero.mp hdvd)

theorem ofW_zero (c : Curve) : ofW c 0 = Point.infinity := rfl

theorem ofW_some {c : Curve} {x y : ZMod c.p}
    (h : (toWeierstrass c).Nonsingular x y) :
    ofW c (WeierstrassCurve.Affine.Point.some h) = Point.affine x.val y.val := rfl

theorem ofW_eq_infinity_iff {c : Curve} (A : (toWeierstrass c).Point) :
    ofW c A = Point.infinity ↔ A = 0 := by
  cases A with
  | zero => simp [ofW_zero, WeierstrassCurve.Affine.Point.zero_def]
  | @some x y h =>
    constructor
    · intro hcontra
      exact absurd hcontra (by simp [ofW_some])
    · intro hcontra
      exact absurd hcontra (WeierstrassCurve.Affine.Point.some_ne_zero h)

theorem valid_ofW {c : Curve} [NeZero c.p] (A : (toWeierstrass c).Point) :
    Valid c (ofW c A) := by
  cases A with
  | zero => exact trivial
  | @some x y h =>
    rw [ofW_some]
    refine ⟨ZMod.val_lt x, ZMod.val_lt y, ?_⟩
    have heq : y ^ 2 = x ^ 3 + (c.a : ZMod c.p) * x + (c.b : ZMod c.p) :=
      (toW_equation_iff c x y).mp h.1
    have hl : ((y.val ^ 2 % c.p : Nat) : ZMod c.p) = y ^ 2 := by
      rw [ZMod.natCast_mod]
      push_cast
      rw [cast_val_self]
    have hr : (((x.val ^ 3 + c.a * x.val + c.b) % c.p : Nat) : ZMod c.p) =
        x ^ 3 + (c.a : ZMod c.p) * x + (c.b : ZMod c.p) := by
      rw [ZMod.natCast_mod]
      push_cast
      rw [cast_val_self]
    have hpos : 0 < c.p := Nat.pos_of_ne_zero (NeZero.ne c.p)
    exact natCast_inj_of_lt (Nat.mod_lt _ hpos) (Nat.mod_lt _ hpos)
      (by rw [hl, hr, heq])

theorem onCurve_of_valid {c : Curve} {P : Point} (hP : Valid c P) :
    onCurve c P = true := by
  cases P with
  | infinity => rfl
  | affine x y =>
    simp only [onCurve, beq_iff_eq]
    exact hP.2.2

theorem valid_exists_ofW {c : Curve} (hp : Nat.Prime c.p)
    (hΔ : (toWeierstrass c).Δ ≠ 0) {P : Point} (hP : Valid c P) :
    ∃ A, ofW c A = P := by
  cases P with
  | infinity => exact ⟨0, rfl⟩
  | affine x y =>
    obtain ⟨hx, hy, heq⟩ := hP
    haveI : Fact (Nat.Prime c.p) := ⟨hp⟩
    have hcast : ((y : ZMod c.p)) ^ 2 =
        (x : ZMod c.p) ^ 3 + (c.a : ZMod c.p) * (x : ZMod c.p) + (c.b : ZMod c.p) := by
      have := congrArg (fun m : Nat => (m : ZMod c.p)) heq
      simp only [ZMod.natCast_mod] at this
      push_cast at this
      exact this
    have hEq : (toWeierstrass c).Equation (x : ZMod c.p) (y : ZMod c.p) :=
      (toW_equation_iff c _ _).mpr hcast
    have hns : (toWeierstrass c).Nonsingular (x : ZMod c.p) (y : ZMod c.p) :=
      (toWeierstrass c).nonsingular_of_Δ_ne_zero hEq hΔ
    refine ⟨WeierstrassCurve.Affine.Point.some hns, ?_⟩
    rw [ofW_some, ZMod.val_natCast, ZMod.val_natCast, Nat.mod_eq_of_lt hx,
      Nat.mod_eq_of_lt hy]

end Ecc

namespace Ecc

theorem add_infinity_left (c : Curve) (Q : Point) : add c Point.infinity Q = some Q := by
  cases Q <;> rfl

theorem add_infinity_right (c : Curve) (P : Point) : add c P Point.infinity = some P := by
  cases P <;> rfl

theorem zmod_val_inj {p : Nat} [NeZero p] {u v : ZMod p} (h : u.val = v.val) : u = v := by
  have := congrArg (fun m : Nat => (m : ZMod p)) h
  simpa [cast_val_self] using this

theorem val_neg_iff {p : Nat} [NeZero p] (y1 y2 : ZMod p) :
    y2.val = (p - y1.val) % p ↔ y2 = -y1 := by
  constructor
  · intro h
    exact zmod_val_inj (by rw [h, ZMod.neg_val'])
  · intro h
    rw [h, ZMod.neg_val']

/-- The computational sloped-case tail agrees with Mathlib's `addX`/`addY`
formulas once the computational slope agrees with the field slope. -/
theorem chordPoint_ofW {c : Curve} [hp : Fact (Nat.Prime c.p)]
    {x₁ y₁ x₂ L : ZMod c.p} {l : Nat} (hl : (l : ZMod c.p) = L) :
    chordPoint c x₁.val y₁.val x₂.val l =
      Point.affine ((toWeierstrass c).addX x₁ x₂ L).val
        ((toWeierstrass c).addY x₁ x₂ y₁ L).val := by
  have hp0 : 0 < c.p := hp.out.pos
  simp only [chordPoint]
  have hx3cast : ((fmod ((l : Int) ^ 2 - (x₁.val : Int) - (x₂.val : Int)) c.p : Nat) : ZMod c.p) =
      (toWeierstrass c).addX x₁ x₂ L := by
    rw [fmod_cast hp0]
    push_cast
    rw [cast_val_self, cast_val_self, hl]
    rw [WeierstrassCurve.Affine.addX, toW_a₁, toW_a₂]
    ring
  have hx3 : fmod ((l : Int) ^ 2 - (x₁.val : Int) - (x₂.val : Int)) c.p =
      ((toWeierstrass c).addX x₁ x₂ L).val :=
    eq_val_of_cast_eq (fmod_lt hp0 _) hx3cast
  rw [hx3]
  congr 1
  have hy3cast : ((fmod ((l : Int) * ((x₁.val : Int) - (((toWeierstrass c).addX x₁ x₂ L).val : Int))
      - (y₁.val : Int)) c.p : Nat) : ZMod c.p) = (toWeierstrass c).addY x₁ x₂ y₁ L := by
    rw [fmod_cast hp0]
    push_cast
    rw [cast_val_self, cast_val_self, cast_val_self, hl]
    rw [WeierstrassCurve.Affine.addY, WeierstrassCurve.Affine.negAddY, toW_negY]
    ring
  exact eq_val_of_cast_eq (fmod_lt hp0 _) hy3cast

/-- The computational group law agrees with Mathlib's group law on
nonsingular points: `add` maps `ofW A` and `ofW B` to `some (ofW (A + B))`,
in particular it never fails. -/
theorem add_ofW {c : Curve} [hp : Fact (Nat.Prime c.p)]
    (A B : (toWeierstrass c).Point) :
    add c (ofW c A) (ofW c B) = some (ofW c (A + B)) := by
  have hp0 : 0 < c.p := hp.out.pos
  cases A with
  | zero =>
    rw [show (WeierstrassCurve.Affine.Point.zero : (toWeierstrass c).Point) + B = B by
      rw [WeierstrassCurve.Affine.Point.zero_def]; exact zero_add B]
    rw [show ofW c WeierstrassCurve.Affine.Point.zero = Point.infinity from rfl]
    exact add_infinity_left c (ofW c B)
  | @some x₁ y₁ h₁ =>
    cases B with
    | zero =>
      rw [show WeierstrassCurve.Affine.Point.some h₁ + WeierstrassCurve.Affine.Point.zero =
          WeierstrassCurve.Affine.Point.some h₁ by
        rw [WeierstrassCurve.Affine.Point.zero_def]; exact add_zero _]
      exact add_infinity_right c (ofW c (WeierstrassCurve.Affine.Point.some h₁))
    | @some x₂ y₂ h₂ =>
      rw [ofW_some, ofW_some]
      by_cases hC3 : x₁.val = x₂.val ∧ y₂.val = (c.p - y₁.val) % c.p
      · obtain ⟨hx', hy'⟩ := hC3
        have hx : x₁ = x₂ := zmod_val_inj hx'
        have hy : y₁ = (toWeierstrass c).negY x₂ y₂ := by
          rw [toW_negY]
          have : y₂ = -y₁ := (val_neg_iff y₁ y₂).mp hy'
          rw [this, neg_neg]
        rw [WeierstrassCurve.Affine.Point.add_of_Y_eq hx hy]
        simp only [add]
        rw [if_pos ⟨hx', hy'⟩]
        rfl
      · have hxy : x₁ = x₂ → y₁ ≠ (toWeierstrass c).negY x₂ y₂ := by
          intro hx hy
          apply hC3
          refine ⟨by rw [hx], ?_⟩
          rw [toW_negY] at hy
          have : y₂ = -y₁ := by rw [hy, neg_neg]
          exact (val_neg_iff y₁ y₂).mpr this
        rw [WeierstrassCurve.Affine.Point.add_of_imp hxy, ofW_some]
        by_cases hC4 : x₁.val = x₂.val ∧ y₁.val = y₂.val
        · -- doubling case
          have hx : x₁ = x₂ := zmod_val_inj hC4.1
          have hyy : y₁ = y₂ := zmod_val_inj hC4.2
          have hy' : y₁ ≠ (toWeierstrass c).negY x₂ y₂ := hxy hx
          have h2y : (2 : ZMod c.p) * y₁ ≠ 0 := by
            intro hcontra
            apply hy'
            rw [toW_negY, ← hyy]
            have : y₁ + y₁ = 0 := by rw [← two_mul]; exact hcontra
            linear_combination this
          have h2ycast : ((2 * y₁.val : Nat) : ZMod c.p) ≠ 0 := by
            push_cast
            rw [cast_val_self]
            exact h2y
          obtain ⟨hinv, hicast, hilt⟩ := inverse_cast h2ycast
          have hslope : (toWeierstrass c).slope x₁ x₂ y₁ y₂ =
              (3 * x₁ ^ 2 + (c.a : ZMod c.p)) * ((2 : ZMod c.p) * y₁)⁻¹ := by
            rw [WeierstrassCurve.Affine.slope_of_Y_ne hx hy']
            rw [div_eq_mul_inv]
            congr 1
            · rw [toW_a₂, toW_a₄, toW_a₁]
              ring
            · rw [toW_negY]
              congr 1
              ring
          have hl : (((3 * x₁.val ^ 2 + c.a) * ((2 * y₁.val) ^ (c.p - 2) % c.p) % c.p : Nat) :
              ZMod c.p) = (toWeierstrass c).slope x₁ x₂ y₁ y₂ := by
            rw [ZMod.natCast_mod, Nat.cast_mul, hicast, hslope]
            congr 1
            · push_cast
              rw [cast_val_self]
            · congr 1
              push_cast
              rw [cast_val_self]
          simp only [add]
          rw [if_neg hC3, if_pos hC4, hinv]
          exact congrArg some (chordPoint_ofW hl)
        · -- general (chord) case
          by_cases hxv : x₁.val = x₂.val
          · -- impossible: same x but neither equal nor opposite y
            exfalso
            have hx : x₁ = x₂ := zmod_val_inj hxv
            have he₁ : y₁ ^ 2 = x₁ ^ 3 + (c.a : ZMod c.p) * x₁ + (c.b : ZMod c.p) :=
              (toW_equation_iff c x₁ y₁).mp h₁.1
            have he₂ : y₂ ^ 2 = x₂ ^ 3 + (c.a : ZMod c.p) * x₂ + (c.b : ZMod c.p) :=
              (toW_equation_iff c x₂ y₂).mp h₂.1
            rw [← hx] at he₂
            have hsq : y₁ * y₁ = y₂ * y₂ := by
              have : y₁ ^ 2 = y₂ ^ 2 := by rw [he₁, he₂]
              linear_combination this
            rcases mul_self_eq_mul_self_iff.mp hsq with heq | hneg
            · exact hC4 ⟨hxv, congrArg ZMod.val heq⟩
            · exact hxy hx (by rw [toW_negY, hneg])
          · have hx : x₁ ≠ x₂ := fun h => hxv (congrArg ZMod.val h)
            have hdcast : ((fmod ((x₂.val : Int) - (x₁.val : Int)) c.p : Nat) : ZMod c.p) =
                x₂ - x₁ := by
              rw [fmod_cast hp0]
              push_cast
              rw [cast_val_self, cast_val_self]
            have hdne : ((fmod ((x₂.val : Int) - (x₁.val : Int)) c.p : Nat) : ZMod c.p) ≠ 0 := by
              rw [hdcast]
              exact sub_ne_zero.mpr (Ne.symm hx)
            obtain ⟨hinv, hicast, hilt⟩ := inverse_cast hdne
            have hslope : (toWeierstrass c).slope x₁ x₂ y₁ y₂ = (y₂ - y₁) * (x₂ - x₁)⁻¹ := by
              rw [WeierstrassCurve.Affine.slope_of_X_ne hx, div_eq_mul_inv]
              rw [show (y₁ - y₂) = -(y₂ - y₁) by ring, show (x₁ - x₂) = -(x₂ - x₁) by ring]
              rw [inv_neg]
              ring
            have hl : ((fmod (((y₂.val : Int) - (y₁.val : Int)) *
                ((fmod ((x₂.val : Int) - (x₁.val : Int)) c.p ^ (c.p - 2) % c.p : Nat) : Int))
                  c.p : Nat) : ZMod c.p) = (toWeierstrass c).slope x₁ x₂ y₁ y₂ := by
              rw [fmod_cast hp0]
              rw [Int.cast_mul, Int.cast_sub, Int.cast_natCast, Int.cast_natCast,
                Int.cast_natCast]
              rw [cast_val_self, cast_val_self, hicast, hdcast, hslope]
            simp only [add]
            rw [if_neg hC3, if_neg hC4, hinv]
            exact congrArg some (chordPoint_ofW hl)

end Ecc

namespace Ecc

/-- Fuel-indexed correspondence for double-and-add: with enough fuel the
computational scalar multiplication agrees with `k • A` in the Mathlib
point group. -/
theorem multiplyGo_ofW {c : Curve} [hp : Fact (Nat.Prime c.p)]
    (A : (toWeierstrass c).Point) :
    ∀ fuel k : Nat, k ≤ fuel →
      multiplyGo c (ofW c A) fuel k = some (ofW c (k • A)) := by
  intro fuel
  induction fuel with
  | zero =>
    intro k hk
    have : k = 0 := Nat.le_zero.mp hk
    subst this
    rw [zero_nsmul]
    rfl
  | succ fuel ih =>
    intro k hk
    match k with
    | 0 =>
      rw [zero_nsmul]
      rfl
    | m + 1 =>
      have hrec : (m + 1) / 2 ≤ fuel := by
        have h1 : (m + 1) / 2 < m + 1 := Nat.div_lt_self (Nat.succ_pos m) one_lt_two
        omega
      have hstep := ih ((m + 1) / 2) hrec
      show (match multiplyGo c (ofW c A) fuel ((m + 1) / 2) with
        | none => none
        | some h =>
          match add c h h with
          | none => none
          | some d => if (m + 1) % 2 = 1 then add c d (ofW c A) else some d) =
          some (ofW c ((m + 1) • A))
      rw [hstep]
      show (match add c (ofW c (((m + 1) / 2) • A)) (ofW c (((m + 1) / 2) • A)) with
        | none => none
        | some d => if (m + 1) % 2 = 1 then add c d (ofW c A) else some d) =
          some (ofW c ((m + 1) • A))
      rw [add_ofW]
      show (if (m + 1) % 2 = 1 then
          add c (ofW c (((m + 1) / 2) • A + ((m + 1) / 2) • A)) (ofW c A)
        else some (ofW c (((m + 1) / 2) • A + ((m + 1) / 2) • A))) = some (ofW c ((m + 1) • A))
      have hsplit : ((m + 1) / 2) • A + ((m + 1) / 2) • A + ((m + 1) % 2) • A = (m + 1) • A := by
        rw [← add_nsmul, ← add_nsmul]
        congr 1
        omega
      by_cases hodd : (m + 1) % 2 = 1
      · rw [if_pos hodd, add_ofW]
        congr 2
        rw [← hsplit, hodd, one_nsmul]
      · rw [if_neg hodd]
        congr 2
        have heven : (m + 1) % 2 = 0 := by omega
        rw [← hsplit, heven, zero_nsmul, add_zero]

/-- The computational scalar multiplication agrees with the Mathlib point
group: `multiply c k (ofW A) = some (ofW (k • A))`; in particular it
never fails on a point of the curve. -/
theorem multiply_ofW {c : Curve} [hp : Fact (Nat.Prime c.p)]
    (A : (toWeierstrass c).Point) (k : Nat) :
    multiply c k (ofW c A) = some (ofW c (k • A)) :=
  multiplyGo_ofW A k k le_rfl

end Ecc

namespace Ecc

/-- Casting a satisfied `mod p` curve equation on naturals into `ZMod p`. -/
theorem curveEq_cast {c : Curve} {x y : Nat}
    (he : y ^ 2 % c.p = (x ^ 3 + c.a * x + c.b) % c.p) :
    (y : ZMod c.p) ^ 2 =
      (x : ZMod c.p) ^ 3 + (c.a : ZMod c.p) * (x : ZMod c.p) + (c.b : ZMod c.p) := by
  have := congrArg (fun m : Nat => (m : ZMod c.p)) he
  simp only [ZMod.natCast_mod] at this
  push_cast at this
  exact this

/-- C1: `add(P, Q, curve)` is computed by the following mutually exclusive
cases in priority order: `P = O` gives `Q`; `Q = O` gives `P`; `P = -Q`
(same `x`, opposite `y`) gives `O`; `P = Q` uses the doubling slope
`(3x₁² + a)·inverse(2y₁, p) mod p`; otherwise the general slope
`(y₂ - y₁)·inverse(x₂ - x₁, p) mod p`; and in the sloped cases the result
is `(x₃, y₃)` with `x₃ = (λ² - x₁ - x₂) mod p`,
`y₃ = (λ(x₁ - x₃) - y₁) mod p`. -/
theorem claim1_add_case_analysis (c : Curve) (P Q : Point) :
    (P = Point.infinity → add c P Q = some Q) ∧
    (Q = Point.infinity → add c P Q = some P) ∧
    ∀ x1 y1 x2 y2, P = Point.affine x1 y1 → Q = Point.affine x2 y2 →
      ((x1 = x2 ∧ y2 = (c.p - y1) % c.p) → add c P Q = some Point.infinity) ∧
      (¬(x1 = x2 ∧ y2 = (c.p - y1) % c.p) → (x1 = x2 ∧ y1 = y2) →
        add c P Q = (inverse (2 * y1) c.p).map (fun i =>
          let l : Nat := (3 * x1 ^ 2 + c.a) * i % c.p
          let x3 := fmod ((l : Int) ^ 2 - (x1 : Int) - (x2 : Int)) c.p
          Point.affine x3 (fmod ((l : Int) * ((x1 : Int) - (x3 : Int)) - (y1 : Int)) c.p))) ∧
      (¬(x1 = x2 ∧ y2 = (c.p - y1) % c.p) → ¬(x1 = x2 ∧ y1 = y2) →
        add c P Q = (inverse (fmod ((x2 : Int) - (x1 : Int)) c.p) c.p).map (fun i =>
          let l : Nat := fmod (((y2 : Int) - (y1 : Int)) * (i : Int)) c.p
          let x3 := fmod ((l : Int) ^ 2 - (x1 : Int) - (x2 : Int)) c.p
          Point.affine x3 (fmod ((l : Int) * ((x1 : Int) - (x3 : Int)) - (y1 : Int)) c.p))) := by
  refine ⟨?_, ?_, ?_⟩
  · intro h
    subst h
    exact add_infinity_left c Q
  · intro h
    subst h
    exact add_infinity_right c P
  · intro x1 y1 x2 y2 hP hQ
    subst hP
    subst hQ
    refine ⟨?_, ?_, ?_⟩
    · intro h3
      simp only [add]
      rw [if_pos h3]
    · intro h3 h4
      simp only [add]
      rw [if_neg h3, if_pos h4]
      cases h : inverse (2 * y1) c.p with
      | none => rfl
      | some i => rfl
    · intro h3 h4
      simp only [add]
      rw [if_neg h3, if_neg h4]
      cases h : inverse (fmod ((x2 : Int) - (x1 : Int)) c.p) c.p with
      | none => rfl
      | some i => rfl

/-- C3: for every valid point `P`, adding the identity gives `P` back and
adding `negate(P)` gives the identity, where `negate` fixes the identity
and maps `(x, y)` to `(x, (p - y) mod p)`. -/
theorem claim3_add_infinity_and_negate {c : Curve} {P : Point} (hP : Valid c P) :
    add c P Point.infinity = some P ∧ add c P (negate c P) = some Point.infinity := by
  refine ⟨add_infinity_right c P, ?_⟩
  cases P with
  | infinity => rfl
  | affine x y =>
    simp [negate, add]

/-- Witness for C3 at the generator of the worked example's curve. -/
theorem claim3_witness :
    Valid demoCurve (Point.affine 5 1) ∧
      (add demoCurve (Point.affine 5 1) Point.infinity = some (Point.affine 5 1) ∧
        add demoCurve (Point.affine 5 1) (negate demoCurve (Point.affine 5 1)) =
          some Point.infinity) :=
  ⟨by decide, claim3_add_infinity_and_negate (by decide)⟩

/-- C5: on the worked example's curve (`a=2, b=2, p=17`, `G=(5,1)`), the
private keys `5` and `9` yield public keys `A = 5·G` and `B = 9·G`, and
the two shared-secret computations produce the same point. -/
theorem claim5_demo_shared_secret :
    ∃ A B S : Point,
      multiply demoCurve 5 (generator demoCurve) = some A ∧
      multiply demoCurve 9 (generator demoCurve) = some B ∧
      deriveSharedSecret demoCurve 5 B = some S ∧
      deriveSharedSecret demoCurve 9 A = some S :=
  ⟨Point.affine 9 16, Point.affine 7 6, Point.affine 0 6,
    by decide, by decide, by decide, by decide⟩

/-- C9: coordinates violating the curve equation are rejected: the
validated point constructor fails (`PointNotOnCurve`), and
`deriveSharedSecret` fails on such a peer point for every private scalar,
before any multiplication happens. -/
theorem claim9_point_not_on_curve {c : Curve} {x y : Nat}
    (h : ¬ y ^ 2 % c.p = (x ^ 3 + c.a * x + c.b) % c.p) :
    mkPoint c x y = none ∧
      ∀ d, deriveSharedSecret c d (Point.affine x y) = none := by
  have hoc : onCurve c (Point.affine x y) = false := by
    simp only [onCurve]
    exact beq_eq_false_iff_ne.mpr h
  constructor
  · simp only [mkPoint, hoc]
    rfl
  · intro d
    simp only [deriveSharedSecret, hoc]
    rfl

/-- Witness for C9 at the off-curve pair `(1, 1)` of the worked example's
curve. -/
theorem claim9_witness :
    ¬ (1 : Nat) ^ 2 % demoCurve.p =
        ((1 : Nat) ^ 3 + demoCurve.a * 1 + demoCurve.b) % demoCurve.p ∧
      mkPoint demoCurve 1 1 = none ∧
      deriveSharedSecret demoCurve 3 (Point.affine 1 1) = none :=
  ⟨by decide, (claim9_point_not_on_curve (by decide)).1,
    (claim9_point_not_on_curve (by decide)).2 3⟩

/-- C10: `curve.product` with the point argument omitted multiplies the
scalar by the curve's generator: the one-argument form equals the
two-argument form applied to `G`. -/
theorem claim10_product_default_generator (c : Curve) (k : Nat) :
    product c k none = product c k (some (generator c)) := rfl

end Ecc

namespace Ecc

/-- C2: on valid points, `add` never attempts to invert a zero residue:
it always succeeds, and doubling a point with `y = 0` is intercepted by
the `P = -Q` case (such a point is its own negation) and returns the
identity before the doubling slope is computed. -/
theorem claim2_no_zero_inverse (c : Curve) (hp : Nat.Prime c.p) (hp2 : 2 < c.p)
    (P Q : Point) (hP : Valid c P) (hQ : Valid c Q) :
    (add c P Q).isSome = true ∧
      ∀ x, P = Point.affine x 0 → add c P P = some Point.infinity := by
  haveI : Fact (Nat.Prime c.p) := ⟨hp⟩
  constructor
  · cases P with
    | infinity => rw [add_infinity_left]; rfl
    | affine x1 y1 =>
      cases Q with
      | infinity => rw [add_infinity_right]; rfl
      | affine x2 y2 =>
        obtain ⟨hx1, hy1, he1⟩ := hP
        obtain ⟨hx2, hy2, he2⟩ := hQ
        simp only [add]
        by_cases h3 : x1 = x2 ∧ y2 = (c.p - y1) % c.p
        · rw [if_pos h3]
          rfl
        · rw [if_neg h3]
          by_cases h4 : x1 = x2 ∧ y1 = y2
          · rw [if_pos h4]
            have hy1ne : y1 ≠ 0 := by
              intro h0
              exact h3 ⟨h4.1, by rw [← h4.2, h0, Nat.sub_zero, Nat.mod_self]⟩
            have hmodne : ¬ (2 * y1) % c.p = 0 := by
              intro h0
              rcases (Nat.Prime.dvd_mul hp).mp (Nat.dvd_of_mod_eq_zero h0) with h2 | hy
              · have := Nat.le_of_dvd (by norm_num) h2
                omega
              · have := Nat.le_of_dvd (Nat.pos_of_ne_zero hy1ne) hy
                omega
            unfold inverse
            rw [if_neg hmodne]
            rfl
          · rw [if_neg h4]
            have hxne : x1 ≠ x2 := by
              intro hxeq
              have hc1 := curveEq_cast he1
              have hc2 := curveEq_cast he2
              rw [← hxeq] at hc2
              have hsq : (y1 : ZMod c.p) * (y1 : ZMod c.p) =
                  (y2 : ZMod c.p) * (y2 : ZMod c.p) := by
                have h12 : ((y1 : ZMod c.p)) ^ 2 = ((y2 : ZMod c.p)) ^ 2 := by
                  rw [hc1, hc2]
                linear_combination h12
              rcases mul_self_eq_mul_self_iff.mp hsq with heq | hneg
              · exact h4 ⟨hxeq, natCast_inj_of_lt hy1 hy2 heq⟩
              · apply h3
                refine ⟨hxeq, ?_⟩
                have hcast : (y2 : ZMod c.p) = -(y1 : ZMod c.p) := by
                  linear_combination hneg
                have hval : ((-(y1 : ZMod c.p)).val : Nat) = (c.p - y1) % c.p := by
                  rw [ZMod.neg_val', ZMod.val_cast_of_lt hy1]
                rw [← hval]
                exact eq_val_of_cast_eq hy2 hcast
            have hflt : fmod ((x2 : Int) - (x1 : Int)) c.p < c.p := fmod_lt hp.pos _
            have hfne : fmod ((x2 : Int) - (x1 : Int)) c.p ≠ 0 := by
              intro h0
              have hc : ((fmod ((x2 : Int) - (x1 : Int)) c.p : Nat) : ZMod c.p) =
                  (x2 : ZMod c.p) - (x1 : ZMod c.p) := by
                rw [fmod_cast hp.pos]
                push_cast
                ring
              rw [h0] at hc
              have : (x2 : ZMod c.p) = (x1 : ZMod c.p) := by
                have h00 : ((0 : Nat) : ZMod c.p) = 0 := by norm_num
                rw [h00] at hc
                linear_combination -hc
              exact hxne (natCast_inj_of_lt hx2 hx1 this).symm
            unfold inverse
            rw [if_neg (by rw [Nat.mod_eq_of_lt hflt]; exact hfne)]
            rfl
  · intro x hx
    subst hx
    simp [add, Nat.mod_self]

/-- The curve `y² = x³ + 4x` over `ℤ/5`, which has the two-torsion point
`(0, 0)` with zero `y`-coordinate; used to witness C2. -/
def zeroYCurve : Curve :=
  ⟨4, 0, 5, 0, 0, 5⟩

/-- Witness for C2: on `zeroYCurve`, doubling the valid point `(0, 0)`
succeeds and short-circuits to the identity. -/
theorem claim2_witness :
    ((add zeroYCurve (Point.affine 0 0) (Point.affine 0 0)).isSome = true ∧
        ∀ x, Point.affine 0 0 = Point.affine x 0 →
          add zeroYCurve (Point.affine 0 0) (Point.affine 0 0) = some Point.infinity) ∧
      add zeroYCurve (Point.affine 0 0) (Point.affine 0 0) = some Point.infinity :=
  ⟨claim2_no_zero_inverse zeroYCurve (by decide) (by decide)
      (Point.affine 0 0) (Point.affine 0 0) (by decide) (by decide),
    (claim2_no_zero_inverse zeroYCurve (by decide) (by decide)
      (Point.affine 0 0) (Point.affine 0 0) (by decide) (by decide)).2 0 rfl⟩

/-- C4: ECDH agreement.  For any two scalars `a`, `b` whose public keys
`A = a·G`, `B = b·G` are produced by `multiply` on a nonsingular curve
with valid generator, the two shared-secret derivations agree and both
equal `multiply(a·b, G)`. -/
theorem claim4_ecdh_agreement (c : Curve) (hp : Nat.Prime c.p) (hp2 : 2 < c.p)
    (hΔ : (4 * c.a ^ 3 + 27 * c.b ^ 2) % c.p ≠ 0)
    (hG : Valid c (generator c)) (a b : Nat) (A B : Point)
    (hA : multiply c a (generator c) = some A)
    (hB : multiply c b (generator c) = some B) :
    deriveSharedSecret c a B = deriveSharedSecret c b A ∧
      deriveSharedSecret c a B = multiply c (a * b) (generator c) := by
  haveI : Fact (Nat.Prime c.p) := ⟨hp⟩
  haveI : NeZero c.p := ⟨hp.pos.ne'⟩
  obtain ⟨G0, hG0⟩ := valid_exists_ofW hp (toW_Δ_ne_zero hp hp2 hΔ) hG
  rw [← hG0] at hA hB
  rw [multiply_ofW] at hA hB
  have hA' : A = ofW c (a • G0) := (Option.some.inj hA).symm
  have hB' : B = ofW c (b • G0) := (Option.some.inj hB).symm
  subst hA'
  subst hB'
  have hvA : onCurve c (ofW c (a • G0)) = true := onCurve_of_valid (valid_ofW _)
  have hvB : onCurve c (ofW c (b • G0)) = true := onCurve_of_valid (valid_ofW _)
  unfold deriveSharedSecret
  rw [hvA, hvB]
  simp only [if_true]
  rw [multiply_ofW, multiply_ofW, ← hG0, multiply_ofW]
  constructor
  · congr 2
    rw [smul_smul, smul_smul, Nat.mul_comm]
  · congr 2
    rw [smul_smul]

/-- Witness for C4 at the worked example: keys `5` and `9` on the demo
curve. -/
theorem claim4_witness :
    multiply demoCurve 5 (generator demoCurve) = some (Point.affine 9 16) ∧
      multiply demoCurve 9 (generator demoCurve) = some (Point.affine 7 6) ∧
      (deriveSharedSecret demoCurve 5 (Point.affine 7 6) =
          deriveSharedSecret demoCurve 9 (Point.affine 9 16) ∧
        deriveSharedSecret demoCurve 5 (Point.affine 7 6) =
          multiply demoCurve (5 * 9) (generator demoCurve)) :=
  ⟨by decide, by decide,
    claim4_ecdh_agreement demoCurve (by decide) (by decide) (by decide) (by decide) 5 9
      (Point.affine 9 16) (Point.affine 7 6) (by decide) (by decide)⟩

end Ecc

namespace Ecc

/-- Witness for C1: the doubling case at `(5,1) + (5,1)` on the worked
example's curve. -/
theorem claim1_witness :
    ¬((5 : Nat) = 5 ∧ (1 : Nat) = (demoCurve.p - 1) % demoCurve.p) ∧
      add demoCurve (Point.affine 5 1) (Point.affine 5 1) =
        (inverse (2 * 1) demoCurve.p).map (fun i =>
          let l : Nat := (3 * 5 ^ 2 + demoCurve.a) * i % demoCurve.p
          let x3 := fmod ((l : Int) ^ 2 - ((5 : Nat) : Int) - ((5 : Nat) : Int)) demoCurve.p
          Point.affine x3
            (fmod ((l : Int) * (((5 : Nat) : Int) - (x3 : Int)) - ((1 : Nat) : Int))
              demoCurve.p)) :=
  ⟨by decide,
    ((claim1_add_case_analysis demoCurve (Point.affine 5 1) (Point.affine 5 1)).2.2
      5 1 5 1 rfl rfl).2.1 (by decide) ⟨rfl, rfl⟩⟩

/-- C6: one ECDSA signing attempt computes `r = x₁ mod n` and
`s = k⁻¹·(z + r·d) mod n` from `(x₁, y₁) = k·G`; a returned signature
always has `r` and `s` in `[1, n-1]`, and a degenerate outcome (`r = 0`
or `s = 0`) is rejected (`none`), which makes the signing loop redraw the
nonce and retry. -/
theorem claim6_sign_formulas (c : Curve) (hn : 0 < c.n) (z d k : Nat)
    (hk1 : 1 ≤ k) (hk2 : k ≤ c.n - 1) :
    (∀ r s, sign c z d k = some (r, s) →
      (1 ≤ r ∧ r ≤ c.n - 1 ∧ 1 ≤ s ∧ s ≤ c.n - 1) ∧
      ∃ x1 y1 ki, multiply c k (generator c) = some (Point.affine x1 y1) ∧
        inverse k c.n = some ki ∧ r = x1 % c.n ∧ s = ki * (z + r * d) % c.n) ∧
    (∀ x1 y1 ki, multiply c k (generator c) = some (Point.affine x1 y1) →
      inverse k c.n = some ki →
      (x1 % c.n = 0 ∨ ki * (z + x1 % c.n * d) % c.n = 0) →
      sign c z d k = none) := by
  constructor
  · intro r s hrs
    cases hmul : multiply c k (generator c) with
    | none =>
      simp only [sign, hmul] at hrs
      exact Option.noConfusion hrs
    | some P =>
      cases P with
      | infinity =>
        simp only [sign, hmul] at hrs
        exact Option.noConfusion hrs
      | affine x1 y1 =>
        cases hki : inverse k c.n with
        | none =>
          simp only [sign, hmul, hki] at hrs
          exact Option.noConfusion hrs
        | some ki =>
          simp only [sign, hmul, hki] at hrs
          by_cases hdeg : x1 % c.n = 0 ∨ ki * (z + x1 % c.n * d) % c.n = 0
          · rw [if_pos hdeg] at hrs
            cases hrs
          · rw [if_neg hdeg] at hrs
            push_neg at hdeg
            obtain ⟨hr0, hs0⟩ := hdeg
            simp only [Option.some.injEq, Prod.mk.injEq] at hrs
            obtain ⟨hr, hs⟩ := hrs
            have hrlt : x1 % c.n < c.n := Nat.mod_lt _ hn
            have hslt : ki * (z + x1 % c.n * d) % c.n < c.n := Nat.mod_lt _ hn
            refine ⟨⟨by omega, by omega, by omega, by omega⟩,
              ⟨x1, y1, ki, rfl, rfl, hr.symm, ?_⟩⟩
            rw [← hr, ← hs]
  · intro x1 y1 ki hmul hki hdeg
    simp only [sign, hmul, hki]
    rw [if_pos hdeg]

/-- Witness for C6: signing on the demo curve with `z = 10`, `d = 4`,
nonce `k = 3` yields the signature `(10, 4)` with all formulas; the
degeneracy clause applies to nonce `k = 7`, whose point `7·G = (0, 6)`
gives `r = 0`, so the attempt is rejected. -/
theorem claim6_witness :
    (0 < demoCurve.n ∧ (1 : Nat) ≤ 3 ∧ 3 ≤ demoCurve.n - 1) ∧
      ((1 ≤ 10 ∧ 10 ≤ demoCurve.n - 1 ∧ 1 ≤ 4 ∧ 4 ≤ demoCurve.n - 1) ∧
        ∃ x1 y1 ki, multiply demoCurve 3 (generator demoCurve) =
            some (Point.affine x1 y1) ∧
          inverse 3 demoCurve.n = some ki ∧ (10 : Nat) = x1 % demoCurve.n ∧
          (4 : Nat) = ki * (10 + 10 * 4) % demoCurve.n) ∧
      sign demoCurve 10 4 7 = none :=
  ⟨⟨by decide, by decide, by decide⟩,
    ((claim6_sign_formulas demoCurve (by decide) 10 4 3 (by decide) (by decide)).1
      10 4 (by decide)),
    ((claim6_sign_formulas demoCurve (by decide) 10 4 7 (by decide) (by decide)).2
      0 6 11 (by decide) (by decide) (Or.inl (by decide)))⟩

/-- C7: verification rejects any signature with `r` or `s` outside
`[1, n-1]`; otherwise, with `w = s⁻¹ mod n`, `u₁ = z·w mod n`,
`u₂ = r·w mod n` and `R = u₁·G + u₂·Q`, it accepts exactly when `R` is
not the identity and its `x`-coordinate satisfies `x₁ mod n = r`. -/
theorem claim7_verify_characterisation (c : Curve) (z r s : Nat) (Q : Point) :
    ((r = 0 ∨ s = 0 ∨ c.n ≤ r ∨ c.n ≤ s) → verify c z r s Q = false) ∧
    (¬(r = 0 ∨ s = 0 ∨ c.n ≤ r ∨ c.n ≤ s) →
      ∀ w, inverse s c.n = some w →
        ∀ P1 P2, multiply c (z * w % c.n) (generator c) = some P1 →
          multiply c (r * w % c.n) Q = some P2 →
          ∀ R, add c P1 P2 = some R →
            (verify c z r s Q = true ↔
              ∃ x1 y1, R = Point.affine x1 y1 ∧ x1 % c.n = r)) := by
  constructor
  · intro h
    simp only [verify]
    rw [if_pos h]
  · intro h w hw P1 P2 h1 h2 R hR
    simp only [verify, hw, h1, h2, hR]
    rw [if_neg h]
    cases R with
    | infinity =>
      simp only [Bool.false_eq_true, false_iff]
      intro hcontra
      obtain ⟨x1, y1, hcontra, _⟩ := hcontra
      cases hcontra
    | affine x1 y1 =>
      simp only [beq_iff_eq]
      constructor
      · intro hx
        exact ⟨x1, y1, rfl, hx⟩
      · intro hx
        obtain ⟨x1', y1', heq, hx'⟩ := hx
        cases heq
        exact hx'

/-- Witness for C7: the in-range branch at the demo signature `(10, 4)`
with public key `4·G = (3, 1)` on the demo curve, where the verification
point is `(10, 6)` and `10 mod 19 = 10 = r`. -/
theorem claim7_witness :
    ¬((10 : Nat) = 0 ∨ (4 : Nat) = 0 ∨ demoCurve.n ≤ 10 ∨ demoCurve.n ≤ 4) ∧
      (verify demoCurve 10 10 4 (Point.affine 3 1) = true ↔
        ∃ x1 y1, Point.affine 10 6 = Point.affine x1 y1 ∧ x1 % demoCurve.n = 10) :=
  ⟨by decide,
    (claim7_verify_characterisation demoCurve 10 10 4 (Point.affine 3 1)).2 (by decide)
      5 (by decide) (Point.affine 0 11) (Point.affine 7 11) (by decide) (by decide)
      (Point.affine 10 6) (by decide)⟩

end Ecc

namespace Ecc

/-- Scalars act modulo the order: if `n • A = 0` then `m • A = (m % n) • A`. -/
theorem nsmul_mod_eq {M : Type} [AddCommMonoid M] {A : M} {n : Nat}
    (hord : n • A = 0) (m : Nat) : m • A = (m % n) • A := by
  conv_lhs => rw [← Nat.div_add_mod m n]
  rw [add_nsmul, mul_nsmul, hord, smul_zero, zero_add]

/-- C8: ECDSA round trip.  On a nonsingular curve whose generator is
valid, not the identity, and of prime order `n`, every signature produced
by a signing attempt that passes the degeneracy check verifies against
the matching public key. -/
theorem claim8_sign_verify_roundtrip (c : Curve) (hp : Nat.Prime c.p) (hp2 : 2 < c.p)
    (hn : Nat.Prime c.n)
    (hΔ : (4 * c.a ^ 3 + 27 * c.b ^ 2) % c.p ≠ 0)
    (hG : Valid c (generator c)) (hGinf : generator c ≠ Point.infinity)
    (hord : multiply c c.n (generator c) = some Point.infinity)
    (z d k : Nat) (hk1 : 1 ≤ k) (hk2 : k ≤ c.n - 1)
    (Q : Point) (hQ : multiply c d (generator c) = some Q)
    (r s : Nat) (hsig : sign c z d k = some (r, s)) :
    verify c z r s Q = true := by
  haveI : Fact (Nat.Prime c.p) := ⟨hp⟩
  haveI : Fact (Nat.Prime c.n) := ⟨hn⟩
  haveI : NeZero c.p := ⟨hp.pos.ne'⟩
  have hn1 : 1 < c.n := hn.one_lt
  obtain ⟨G0, hG0⟩ := valid_exists_ofW hp (toW_Δ_ne_zero hp hp2 hΔ) hG
  have hordG : c.n • G0 = 0 := by
    have h0 := hord
    rw [← hG0, multiply_ofW] at h0
    exact (ofW_eq_infinity_iff _).mp (Option.some.inj h0)
  have hG0ne : G0 ≠ 0 := by
    intro h0
    apply hGinf
    rw [← hG0, h0]
    rfl
  have hAOrd : addOrderOf G0 = c.n := addOrderOf_eq_prime hordG hG0ne
  have hkG : k • G0 ≠ 0 := by
    intro h0
    have hdvd : c.n ∣ k := hAOrd ▸ addOrderOf_dvd_iff_nsmul_eq_zero.mpr h0
    have := Nat.le_of_dvd (by omega) hdvd
    omega
  have hQ' : Q = ofW c (d • G0) := by
    rw [← hG0, multiply_ofW] at hQ
    exact (Option.some.inj hQ).symm
  cases hkg : k • G0 with
  | zero => exact absurd (hkg.trans WeierstrassCurve.Affine.Point.zero_def) hkG
  | @some X Y hns =>
    have hmulk : multiply c k (generator c) = some (Point.affine X.val Y.val) := by
      rw [← hG0, multiply_ofW, hkg]
      rfl
    have hkne : (k : ZMod c.n) ≠ 0 := natCast_ne_zero_of_lt (by omega) (by omega)
    obtain ⟨hkinv, hkicast, hkilt⟩ := inverse_cast hkne
    simp only [sign, hmulk, hkinv] at hsig
    by_cases hdeg : X.val % c.n = 0 ∨
        k ^ (c.n - 2) % c.n * (z + X.val % c.n * d) % c.n = 0
    · rw [if_pos hdeg] at hsig
      exact Option.noConfusion hsig
    · rw [if_neg hdeg] at hsig
      push_neg at hdeg
      obtain ⟨hr0, hs0⟩ := hdeg
      simp only [Option.some.injEq, Prod.mk.injEq] at hsig
      obtain ⟨hr, hs⟩ := hsig
      subst hr
      subst hs
      have hrlt : X.val % c.n < c.n := Nat.mod_lt _ (by omega)
      have hslt : k ^ (c.n - 2) % c.n * (z + X.val % c.n * d) % c.n < c.n :=
        Nat.mod_lt _ (by omega)
      have hsne : ((k ^ (c.n - 2) % c.n * (z + X.val % c.n * d) % c.n : Nat) :
          ZMod c.n) ≠ 0 := natCast_ne_zero_of_lt hs0 hslt
      obtain ⟨hsinv, hswcast, hswlt⟩ := inverse_cast hsne
      have hrange : ¬(X.val % c.n = 0 ∨
          k ^ (c.n - 2) % c.n * (z + X.val % c.n * d) % c.n = 0 ∨
          c.n ≤ X.val % c.n ∨
          c.n ≤ k ^ (c.n - 2) % c.n * (z + X.val % c.n * d) % c.n) := by
        push_neg
        exact ⟨hr0, hs0, hrlt, hslt⟩
      -- abbreviations for the verification scalars
      have hm1 : multiply c
          (z * ((k ^ (c.n - 2) % c.n * (z + X.val % c.n * d) % c.n) ^ (c.n - 2) % c.n) % c.n)
          (generator c) = some (ofW c
            ((z * ((k ^ (c.n - 2) % c.n * (z + X.val % c.n * d) % c.n) ^ (c.n - 2) % c.n)
              % c.n) • G0)) := by
        rw [← hG0, multiply_ofW]
      have hm2 : multiply c
          ((X.val % c.n) *
            ((k ^ (c.n - 2) % c.n * (z + X.val % c.n * d) % c.n) ^ (c.n - 2) % c.n) % c.n)
          Q = some (ofW c
            (((X.val % c.n) *
              ((k ^ (c.n - 2) % c.n * (z + X.val % c.n * d) % c.n) ^ (c.n - 2) % c.n) % c.n) •
                (d • G0))) := by
        rw [hQ', multiply_ofW]
      -- the verification point is k • G0
      have hkey :
          (z * ((k ^ (c.n - 2) % c.n * (z + X.val % c.n * d) % c.n) ^ (c.n - 2) % c.n)
            % c.n) • G0 +
          ((X.val % c.n) *
            ((k ^ (c.n - 2) % c.n * (z + X.val % c.n * d) % c.n) ^ (c.n - 2) % c.n) % c.n) •
              (d • G0) = k • G0 := by
        rw [smul_smul, ← add_nsmul]
        have hz : ((z * ((k ^ (c.n - 2) % c.n * (z + X.val % c.n * d) % c.n) ^ (c.n - 2)
            % c.n) % c.n +
            (X.val % c.n) *
              ((k ^ (c.n - 2) % c.n * (z + X.val % c.n * d) % c.n) ^ (c.n - 2) % c.n) % c.n
              * d : Nat) : ZMod c.n) = (k : ZMod c.n) := by
          have hT : ((z : ZMod c.n) + ((X.val % c.n : Nat) : ZMod c.n) * (d : ZMod c.n)) ≠
              0 := by
            intro hT0
            apply hsne
            rw [ZMod.natCast_mod, Nat.cast_mul]
            rw [show ((k ^ (c.n - 2) % c.n : Nat) : ZMod c.n) = (k : ZMod c.n)⁻¹ from
              hkicast]
            rw [show ((z + X.val % c.n * d : Nat) : ZMod c.n) =
              (z : ZMod c.n) + ((X.val % c.n : Nat) : ZMod c.n) * (d : ZMod c.n) by
                push_cast; ring]
            rw [hT0, mul_zero]
          have hscast : ((k ^ (c.n - 2) % c.n * (z + X.val % c.n * d) % c.n : Nat) :
              ZMod c.n) = (k : ZMod c.n)⁻¹ *
                ((z : ZMod c.n) + ((X.val % c.n : Nat) : ZMod c.n) * (d : ZMod c.n)) := by
            rw [ZMod.natCast_mod, Nat.cast_mul]
            rw [show ((k ^ (c.n - 2) % c.n : Nat) : ZMod c.n) = (k : ZMod c.n)⁻¹ from
              hkicast]
            congr 1
            push_cast
            ring
          rw [Nat.cast_add, Nat.cast_mul, ZMod.natCast_mod, ZMod.natCast_mod,
            Nat.cast_mul, Nat.cast_mul, hswcast, hscast, mul_inv, inv_inv]
          linear_combination (k : ZMod c.n) * mul_inv_cancel₀ hT
        rw [nsmul_mod_eq hordG, (ZMod.natCast_eq_natCast_iff' _ _ _).mp hz,
          ← nsmul_mod_eq hordG]
      simp only [verify, hsinv]
      rw [if_neg hrange]
      simp only [hm1, hm2]
      rw [add_ofW, hkey, hkg]
      simp [ofW_some]

/-- Witness for C8 at the demo curve: the signature `(10, 4)` on digest
`10` under private key `4` with nonce `3` verifies against the public key
`4·G = (3, 1)`. -/
theorem claim8_witness :
    sign demoCurve 10 4 3 = some (10, 4) ∧
      verify demoCurve 10 10 4 (Point.affine 3 1) = true :=
  ⟨by decide,
    claim8_sign_verify_roundtrip demoCurve (by decide) (by decide) (by decide) (by decide)
      (by decide) (by decide) (by decide) 10 4 3 (by decide) (by decide)
      (Point.affine 3 1) (by decide) 10 4 (by decide)⟩

end Ecc
